import Mathlib

/-!
Verification of the movies-next client-side data pipeline.

The development shallowly embeds the core TypeScript modules:
  * `src/core/lib/movieMapper.ts`  (record normalizer and extraction utilities)
  * `src/features/directors/aggregators/directorsAggregator.ts`
  * the movies feature's filter/pagination module (`matchesFilters`,
    `filterMovies`, `paginate`)
  * `src/core/api/moviesApi.ts` (the page-merging logic of `fetchAllMovies`)

JavaScript strings are modelled as Lean `String`s, with the handful of
string primitives the code uses (trim, toLowerCase, split(","), the
regexes `\s+`, `\d{4}`, `(\d+)\s*min`, `(\d+)\s*h`, `includes`) written as
structurally recursive functions over the character list.  JavaScript
numbers are embedded as exact values: counts and lengths as `Nat`,
parsed integers as `Int`, and values that flow in from arbitrary user
input (thresholds, pagination settings) as `Rat` (the embedding is exact
arithmetic; the source values in scope are small enough that IEEE-754
rounding never changes a comparison).  `null`/`undefined`-able fields are
`Option`s.
-/

namespace MoviesNext

/-! ### JavaScript string primitives -/

/-- Characters matched by the ECMAScript `\s` class (also the set removed
by `String.prototype.trim`): ASCII whitespace, NBSP, BOM, and the Unicode
space separators and line terminators. -/
def jsIsWs (c : Char) : Bool :=
  (9 ≤ c.toNat && c.toNat ≤ 13) || c.toNat = 32 || c.toNat = 160 ||
  c.toNat = 5760 || (8192 ≤ c.toNat && c.toNat ≤ 8202) ||
  c.toNat = 8232 || c.toNat = 8233 || c.toNat = 8239 || c.toNat = 8287 ||
  c.toNat = 12288 || c.toNat = 65279

/-- Model of `String.prototype.trim`: drop leading and trailing `\s`. -/
def trimL (l : List Char) : List Char :=
  ((l.dropWhile jsIsWs).reverse.dropWhile jsIsWs).reverse

def jsTrim (s : String) : String := ⟨trimL s.toList⟩

/-- ASCII fragment of `String.prototype.toLowerCase`.  Every name the
application compares is ASCII, so the simple mapping is exact there. -/
def lowerChar (c : Char) : Char :=
  if 65 ≤ c.toNat ∧ c.toNat ≤ 90 then Char.ofNat (c.toNat + 32) else c

def lowerL (l : List Char) : List Char := l.map lowerChar

def jsToLower (s : String) : String := ⟨lowerL s.toList⟩

/-- Helper for `replace(/\s+/g, " ")`: the flag records whether the
previous character was whitespace (a continuing run emits nothing). -/
def collapseWsAux : Bool → List Char → List Char
  | _, [] => []
  | prevWs, c :: cs =>
    if jsIsWs c then
      if prevWs then collapseWsAux true cs else ' ' :: collapseWsAux true cs
    else c :: collapseWsAux false cs

/-- Model of `replace(/\s+/g, " ")`: every maximal run of whitespace
becomes a single space. -/
def collapseWs (s : String) : String := ⟨collapseWsAux false s.toList⟩

/-- Model of `split(",")` on the character list: `""` yields `[[]]`,
separators are single commas. -/
def splitCommaL : List Char → List (List Char)
  | [] => [[]]
  | c :: cs =>
    if c = ',' then [] :: splitCommaL cs
    else
      match splitCommaL cs with
      | [] => [[c]]
      | g :: gs => (c :: g) :: gs

def jsSplitComma (s : String) : List String :=
  (splitCommaL s.toList).map (fun l => ⟨l⟩)

/-- Does `pat` occur at the head of `l`? -/
def listStarts : List Char → List Char → Bool
  | [], _ => true
  | _ :: _, [] => false
  | p :: ps, c :: cs => p = c && listStarts ps cs

/-- Model of `String.prototype.includes`: does `pat` occur anywhere in
`l`?  The empty pattern always matches, as in JavaScript. -/
def listHasSub (pat : List Char) : List Char → Bool
  | [] => listStarts pat []
  | c :: cs => listStarts pat (c :: cs) || listHasSub pat cs

def isDigitC (c : Char) : Bool := 48 ≤ c.toNat && c.toNat ≤ 57

/-- Value of a digit string, as `parseInt(_, 10)` computes it on an
all-digit input. -/
def digitsVal (l : List Char) : Int :=
  l.foldl (fun a c => a * 10 + ((c.toNat : Int) - 48)) 0

/-! ### Data model (wire format) -/

/-- The wire-format movie record (`Movie` in `core/api/types`).  The
declared TypeScript type has `string` fields, but the normalizer is
written defensively against `null`/`undefined`, so each field is embedded
as an `Option String` (`none` = `null`/`undefined`). -/
structure Movie where
  Title : Option String
  Year : Option String
  Rated : Option String
  Released : Option String
  Runtime : Option String
  Genre : Option String
  Director : Option String
  Writer : Option String
  Actors : Option String
deriving Repr, DecidableEq

/-- The `"N/A"` sentinel. -/
def NA : String := "N/A"

/-! ### Record normalizer (`core/lib/movieMapper.ts`) -/

/-- Model of `safeString`: `null`/`undefined` become `""`, strings are
trimmed (`String(value)` is the identity on strings). -/
def safeString : Option String → String
  | none => ""
  | some s => jsTrim s

/-- First window of four consecutive digits, scanning left to right:
the match of the regex `\d{4}`. -/
def find4 : List Char → Option (List Char)
  | [] => none
  | c :: cs =>
    match cs with
    | c2 :: c3 :: c4 :: _ =>
      if isDigitC c && isDigitC c2 && isDigitC c3 && isDigitC c4 then
        some [c, c2, c3, c4]
      else find4 cs
    | _ => none

/-- Model of `parseYear`: the guard `!yearStr || yearStr === "N/A"`
(only `""` is a falsy string), then the first `\d{4}` match, parsed and
range-checked against [1800, 2100]. -/
def parseYear (yearStr : Option String) : Option Int :=
  match yearStr with
  | none => none
  | some s =>
    if s = "" ∨ s = NA then none
    else
      match find4 s.toList with
      | none => none
      | some ds =>
        let year := digitsVal ds
        if year < 1800 ∨ year > 2100 then none else some year

/-- Attempt of the regex `(\d+)\s*min` (case-insensitive) anchored at the
current position: a nonempty maximal digit run, optional whitespace, then
`min`.  Backtracking into the digit run cannot help (the character after
a shortened run is a digit, which is neither whitespace nor `m`), so
maximal munch is exact. -/
def tryMinAt (l : List Char) : Option Int :=
  let ds := l.takeWhile isDigitC
  if ds = [] then none
  else
    let rest := (l.dropWhile isDigitC).dropWhile jsIsWs
    if listStarts ['m', 'i', 'n'] (lowerL rest) then some (digitsVal ds) else none

/-- First match of `(\d+)\s*min` over the string, capture group 1. -/
def findMinMatch : List Char → Option Int
  | [] => none
  | c :: cs =>
    match tryMinAt (c :: cs) with
    | some n => some n
    | none => findMinMatch cs

/-- Attempt of `(\d+)\s*h` (case-insensitive) at the current position. -/
def tryHAt (l : List Char) : Option Int :=
  let ds := l.takeWhile isDigitC
  if ds = [] then none
  else
    let rest := (l.dropWhile isDigitC).dropWhile jsIsWs
    if listStarts ['h'] (lowerL rest) then some (digitsVal ds) else none

/-- First match of `(\d+)\s*h` over the string, capture group 1. -/
def findHMatch : List Char → Option Int
  | [] => none
  | c :: cs =>
    match tryHAt (c :: cs) with
    | some n => some n
    | none => findHMatch cs

/-- Model of `parseRuntime`: hours and minutes components summed; a total
of zero (or less) yields `null`. -/
def parseRuntime (runtimeStr : Option String) : Option Int :=
  match runtimeStr with
  | none => none
  | some s =>
    if s = "" ∨ s = NA then none
    else
      let minutes := findMinMatch s.toList
      let hours := findHMatch s.toList
      let totalMinutes :=
        (match hours with | some h => h * 60 | none => 0) +
        (match minutes with | some m => m | none => 0)
      if totalMinutes > 0 then some totalMinutes else none

/-- Model of `parseCommaSeparated`: falsy or `"N/A"` input gives `[]`;
otherwise split on commas, trim each piece, drop empty pieces. -/
def parseCommaSeparated (value : Option String) : List String :=
  match value with
  | none => []
  | some s =>
    if s = "" ∨ s = NA then []
    else ((jsSplitComma s).map jsTrim).filter (fun item => item.length > 0)

/-- Model of `normalizeDirectorName`: `safeString` (trim), lowercase,
collapse whitespace runs.  The function is only ever called on plain
strings, so the `safeString` step is a trim. -/
def normalizeDirectorName (director : String) : String :=
  collapseWs (jsToLower (jsTrim director))

/-- Model of `normalizeGenreName` (same pipeline as director names). -/
def normalizeGenreName (genre : String) : String :=
  collapseWs (jsToLower (jsTrim genre))

/-- The canonical in-memory model (`NormalizedMovie`). -/
structure NormalizedMovie where
  title : String
  year : Option Int
  rated : String
  released : String
  runtime : Option Int
  genres : List String
  directors : List String
  writers : List String
  actors : List String
  original : Movie
deriving Repr, DecidableEq

/-- Model of `normalizeMovie`.  Field by field as in the source; the raw
record is kept in `original`. -/
def normalizeMovie (movie : Movie) : NormalizedMovie :=
  { title := safeString movie.Title
    year := parseYear movie.Year
    rated := safeString movie.Rated
    released := safeString movie.Released
    runtime := parseRuntime movie.Runtime
    genres := parseCommaSeparated movie.Genre
    directors := parseCommaSeparated movie.Director
    writers := parseCommaSeparated movie.Writer
    actors := parseCommaSeparated movie.Actors
    original := movie }

/-- Model of `normalizeMovies`. -/
def normalizeMovies (movies : List Movie) : List NormalizedMovie :=
  movies.map normalizeMovie

/-! ### Sorting

`Array.prototype.sort` is a stable sort (ES2019) that orders by the
comparator; with no comparator it orders by UTF-16 code-unit sequences.
We model it as a stable insertion sort parameterized by a strict
"comes before" test. -/

/-- Strict lexicographic order on code sequences. -/
def lexLtN : List Nat → List Nat → Bool
  | _, [] => false
  | [], _ :: _ => true
  | a :: as, b :: bs => if a < b then true else if b < a then false else lexLtN as bs

/-- Insert `x` after every element it does not strictly precede: used
left to right this is a stable sort. -/
def insertSorted (lt : α → α → Bool) (x : α) : List α → List α
  | [] => [x]
  | y :: ys => if lt x y then x :: y :: ys else y :: insertSorted lt x ys

/-- Stable sort by the strict order `lt`. -/
def sortJs (lt : α → α → Bool) (l : List α) : List α :=
  l.foldl (fun acc x => insertSorted lt x acc) []

/-- Sort key for `localeCompare(_, undefined, { sensitivity: "base" })`,
modelled on the ASCII alphanumeric fragment: base sensitivity makes the
comparison case-insensitive, so the key is the lowercased code sequence.
(The full ICU root collation also folds diacritics and reorders some
punctuation; every name the application sorts is plain ASCII.) -/
def baseKey (s : String) : List Nat := (lowerL s.toList).map Char.toNat

/-- Strict "comes before" of the aggregator's comparator. -/
def baseLt (a b : String) : Bool := lexLtN (baseKey a) (baseKey b)

/-- UTF-16 code units of a character (surrogate pair above U+FFFF). -/
def utf16Units (c : Char) : List Nat :=
  if c.toNat < 65536 then [c.toNat]
  else [55296 + (c.toNat - 65536) / 1024, 56320 + (c.toNat - 65536) % 1024]

/-- Sort key of the default (comparator-less) `Array.prototype.sort`:
the UTF-16 code-unit sequence. -/
def unitKey (s : String) : List Nat := (s.toList.map utf16Units).flatten

/-- Strict "comes before" of the default sort: code-unit order, which is
case-sensitive (all uppercase ASCII letters precede all lowercase). -/
def unitLt (a b : String) : Bool := lexLtN (unitKey a) (unitKey b)

/-! ### Director aggregator (`directorsAggregator.ts`) -/

/-- Aggregation output (`DirectorCount`). -/
structure DirectorCount where
  name : String
  count : Nat
deriving Repr, DecidableEq

/-- One `Map` update of the aggregation loop: increment the entry with
this normalized key in place, or append a fresh entry with the trimmed
raw name and count 1.  A JavaScript `Map` preserves insertion order and
updating an existing key keeps its position, so the association list
mirrors it exactly. -/
def bump : List (String × String × Nat) → String → String → List (String × String × Nat)
  | [], k, raw => [(k, raw, 1)]
  | e :: rest, k, raw =>
    if e.1 = k then (e.1, e.2.1, e.2.2 + 1) :: rest else e :: bump rest k raw

/-- The body of the inner `directors.forEach`: skip tokens whose
normalized key is empty, otherwise tally under the key. -/
def tallyToken (acc : List (String × String × Nat)) (director : String) :
    List (String × String × Nat) :=
  let normalized := normalizeDirectorName director
  if normalized = "" then acc else bump acc normalized (jsTrim director)

/-- The director tokens of the record list in processing order (the
nested `movies.forEach` / `directors.forEach` walk). -/
def directorTokens (movies : List Movie) : List String :=
  (movies.map (fun m => parseCommaSeparated m.Director)).flatten

/-- The populated `directorMap`, as an insertion-ordered association
list `(normalized key, first raw name trimmed, count)`. -/
def directorMap (movies : List Movie) : List (String × String × Nat) :=
  (directorTokens movies).foldl tallyToken []

/-- Model of `aggregateDirectors`: the two guards, the tally, the strict
threshold filter, and the base-sensitivity sort by name. -/
def aggregateDirectors (movies : List Movie) (threshold : ℚ) : List DirectorCount :=
  if movies.length = 0 then []
  else if threshold < 0 then []
  else
    let result := (directorMap movies).filterMap
      (fun e => if (e.2.2 : ℚ) > threshold then some ⟨e.2.1, e.2.2⟩ else none)
    sortJs (fun a b => baseLt a.name b.name) result

/-! Declarative counting, used to specify the aggregator and the unique
extractors.  These are the spec side of the refinement: they read the
token stream directly instead of folding a map. -/

/-- Number of tokens whose normalized key is `k`. -/
def tokenCount (normKey : String → String) (ts : List String) (k : String) : Nat :=
  (ts.filter (fun d => normKey d = k)).length

/-- Trimmed raw casing of the first token whose normalized key is `k`. -/
def firstTokenRaw (normKey : String → String) (ts : List String) (k : String) :
    Option String :=
  (ts.find? (fun d => normKey d = k)).map jsTrim

/-- Lookup by normalized key in the tally association list. -/
def getEntry (acc : List (String × String × Nat)) (k : String) :
    Option (String × String × Nat) :=
  acc.find? (fun e => e.1 = k)

/-- Lookup by normalized key in the unique-extraction association list. -/
def getU (acc : List (String × String)) (k : String) : Option (String × String) :=
  acc.find? (fun e => e.1 = k)

/-- Invariant relating the tally association list to the declarative
counts over the processed token prefix: keys are nonempty and duplicate
free, and looking up a nonempty key yields exactly the first raw casing
and the token count of that key. -/
def TallyInv (ts : List String) (acc : List (String × String × Nat)) : Prop :=
  (∀ e ∈ acc, e.1 ≠ "") ∧ (acc.map (fun e => e.1)).Nodup ∧
  ∀ k, k ≠ "" → getEntry acc k =
    (match firstTokenRaw normalizeDirectorName ts k with
     | none => none
     | some raw => some (k, raw, tokenCount normalizeDirectorName ts k))

/-- The corresponding invariant for the unique-extraction fold. -/
def UniqInv (nk : String → String) (ts : List String)
    (acc : List (String × String)) : Prop :=
  (∀ e ∈ acc, e.1 ≠ "") ∧ (acc.map (fun e => e.1)).Nodup ∧
  ∀ k, k ≠ "" → getU acc k = (firstTokenRaw nk ts k).map (fun raw => (k, raw))

/-! ### Unique extraction (`getUniqueDirectors` / `getUniqueGenres`) -/

/-- One `Map` update of the unique-extraction loops: record the first
trimmed raw casing of each nonempty normalized key. -/
def addUnique (normKey : String → String) (acc : List (String × String))
    (tok : String) : List (String × String) :=
  let normalized := normKey tok
  if normalized = "" then acc
  else if acc.any (fun e => e.1 = normalized) then acc
  else acc ++ [(normalized, jsTrim tok)]

/-- The genre tokens of the record list in processing order. -/
def genreTokens (movies : List Movie) : List String :=
  (movies.map (fun m => parseCommaSeparated m.Genre)).flatten

/-- Model of `getUniqueDirectors`: first-seen casing per normalized key,
then `Array.from(map.values()).sort()` — the default, code-unit sort. -/
def getUniqueDirectors (movies : List Movie) : List String :=
  sortJs unitLt
    (((directorTokens movies).foldl (addUnique normalizeDirectorName) []).map
      (fun e => e.2))

/-- Model of `getUniqueGenres` (same shape over the genre field). -/
def getUniqueGenres (movies : List Movie) : List String :=
  sortJs unitLt
    (((genreTokens movies).foldl (addUnique normalizeGenreName) []).map
      (fun e => e.2))

/-! ### Movie filter engine (the movies feature's filter module) -/

/-- Modelled from the spec: the repository exports a `removeAccents`
helper from `core/lib` (it is imported by the filter module and listed in
the library's index), but its defining source file is not among the
provided sources.  The spec says filters are accent-insensitive with
"diacritics stripped from both sides before comparison"; we model the
standard strip as a character map sending precomposed Latin letters to
their base letter and dropping combining marks (U+0300–U+036F).  None of
the verified claims depends on its behavior on accented input. -/
def deaccentChar (c : Char) : List Char :=
  if 768 ≤ c.toNat ∧ c.toNat ≤ 879 then []
  else
    [(([('á', 'a'), ('à', 'a'), ('â', 'a'), ('ä', 'a'), ('ã', 'a'), ('å', 'a'),
       ('é', 'e'), ('è', 'e'), ('ê', 'e'), ('ë', 'e'),
       ('í', 'i'), ('ì', 'i'), ('î', 'i'), ('ï', 'i'),
       ('ó', 'o'), ('ò', 'o'), ('ô', 'o'), ('ö', 'o'), ('õ', 'o'),
       ('ú', 'u'), ('ù', 'u'), ('û', 'u'), ('ü', 'u'),
       ('ñ', 'n'), ('ç', 'c'), ('ý', 'y'),
       ('Á', 'A'), ('À', 'A'), ('Â', 'A'), ('Ä', 'A'), ('Ã', 'A'), ('Å', 'A'),
       ('É', 'E'), ('È', 'E'), ('Ê', 'E'), ('Ë', 'E'),
       ('Í', 'I'), ('Ì', 'I'), ('Î', 'I'), ('Ï', 'I'),
       ('Ó', 'O'), ('Ò', 'O'), ('Ô', 'O'), ('Ö', 'O'), ('Õ', 'O'),
       ('Ú', 'U'), ('Ù', 'U'), ('Û', 'U'), ('Ü', 'U'),
       ('Ñ', 'N'), ('Ç', 'C'), ('Ý', 'Y')] :
        List (Char × Char)).find? (fun p => p.1 = c)).elim c (fun p => p.2)]

def removeAccentsL (l : List Char) : List Char :=
  (l.map deaccentChar).flatten

/-- The query object (`MoviesSearchFilters` in `useMoviesSearch.ts`):
every field optional (`none` = the property is `undefined`). -/
structure MoviesSearchFilters where
  title : Option String
  yearFrom : Option Int
  yearTo : Option Int
  genres : Option (List String)
  director : Option String
deriving Repr, DecidableEq

/-- Title guard of `matchesFilters`: skipped when `filters.title` is
falsy (`undefined` or `""`); otherwise an accent-insensitive,
case-insensitive substring test of the trimmed filter in the title. -/
def titleGuard (movie : NormalizedMovie) (filters : MoviesSearchFilters) : Bool :=
  match filters.title with
  | none => true
  | some t =>
    if t = "" then true
    else listHasSub (removeAccentsL (trimL (lowerL t.toList)))
      (removeAccentsL (lowerL movie.title.toList))

/-- Year lower-bound guard: applies only when both `filters.yearFrom` is
defined and `movie.year` is non-null; fails iff `movie.year < yearFrom`. -/
def yearFromGuard (movie : NormalizedMovie) (filters : MoviesSearchFilters) : Bool :=
  match filters.yearFrom, movie.year with
  | some yf, some y => decide (yf ≤ y)
  | _, _ => true

/-- Year upper-bound guard: applies only when both `filters.yearTo` is
defined and `movie.year` is non-null; fails iff `movie.year > yearTo`. -/
def yearToGuard (movie : NormalizedMovie) (filters : MoviesSearchFilters) : Bool :=
  match filters.yearTo, movie.year with
  | some yt, some y => decide (y ≤ yt)
  | _, _ => true

/-- Genre guard: skipped when `filters.genres` is `undefined` or empty;
otherwise the movie must have a genre equal (case/accent-insensitively)
to some selected genre. -/
def genresGuard (movie : NormalizedMovie) (filters : MoviesSearchFilters) : Bool :=
  match filters.genres with
  | none => true
  | some gs =>
    if gs.length = 0 then true
    else gs.any (fun filterGenre => movie.genres.any (fun movieGenre =>
      removeAccentsL (lowerL movieGenre.toList) =
        removeAccentsL (lowerL filterGenre.toList)))

/-- Director guard: skipped when `filters.director` is falsy; otherwise
an accent/case-insensitive substring test against any director entry. -/
def directorGuard (movie : NormalizedMovie) (filters : MoviesSearchFilters) : Bool :=
  match filters.director with
  | none => true
  | some d =>
    if d = "" then true
    else movie.directors.any (fun director =>
      listHasSub (removeAccentsL (lowerL d.toList))
        (removeAccentsL (lowerL director.toList)))

/-- Model of `matchesFilters`: the early-return chain of the source is
the conjunction of its five guards. -/
def matchesFilters (movie : NormalizedMovie) (filters : MoviesSearchFilters) : Bool :=
  titleGuard movie filters && yearFromGuard movie filters &&
    yearToGuard movie filters && genresGuard movie filters &&
    directorGuard movie filters

/-- Model of `filterMovies`. -/
def filterMovies (movies : List NormalizedMovie) (filters : MoviesSearchFilters) :
    List NormalizedMovie :=
  movies.filter (fun movie => matchesFilters movie filters)

/-! ### Pagination utility -/

/-- Pagination configuration.  Both fields are JavaScript numbers,
embedded as exact rationals (`NaN` and the infinities fall outside the
embedding; the `typeof page === "number"` test of the source is then
always true, and a `NaN` page — which fails `page >= 1` — behaves like
any other rational below 1). -/
structure PaginationConfig where
  page : ℚ
  itemsPerPage : ℚ
deriving Repr, DecidableEq

structure PaginatedResult (T : Type) where
  items : List T
  totalPages : Int
  currentPage : ℚ
  totalItems : Nat
deriving Repr, DecidableEq

/-- ECMAScript `ToIntegerOrInfinity` on a finite number: truncation
toward zero. -/
def jsToInt (q : ℚ) : Int := if q < 0 then ⌈q⌉ else ⌊q⌋

/-- Model of `Array.prototype.slice(start, end)`: indices truncated,
negative indices counted from the end, both clamped to `[0, length]`. -/
def jsSlice (l : List T) (s e : ℚ) : List T :=
  let len : Int := l.length
  let rs := jsToInt s
  let re := jsToInt e
  let s' := if rs < 0 then max (len + rs) 0 else min rs len
  let e' := if re < 0 then max (len + re) 0 else min re len
  (l.take e'.toNat).drop s'.toNat

/-- Model of `paginate`.  Note the guard of the source: it only tests
`typeof page === "number" && page >= 1` — there is no integrality test,
so a fractional page ≥ 1 is used as-is.  `Math.ceil` of the (exact)
quotient is `Int.ceil`; the model leaves `itemsPerPage = 0` outside its
intended domain (JavaScript would produce `Infinity`/`NaN` there, which
the rational embedding cannot carry). -/
def paginate (items : List T) (config : PaginationConfig) : PaginatedResult T :=
  let validPage := if 1 ≤ config.page then config.page else 1
  let totalPages := ⌈(items.length : ℚ) / config.itemsPerPage⌉
  let startIdx := (validPage - 1) * config.itemsPerPage
  { items := jsSlice items startIdx (startIdx + config.itemsPerPage)
    totalPages := totalPages
    currentPage := validPage
    totalItems := items.length }

/-! ### Fetch orchestrator (`core/api/moviesApi.ts`) -/

/-- The error taxonomy of `core/api/types` (kinds only; the messages and
wrapped causes play no role in the verified claims). -/
inductive FetchError
  | validation
  | network
  | api
  | abort
deriving Repr, DecidableEq

/-- The wire response of `fetchPage`. -/
structure MoviesResponse where
  page : Int
  per_page : Int
  total : Int
  total_pages : Int
  data : List Movie
deriving Repr, DecidableEq

/-- The pages `2, 3, ..., total_pages` that `fetchAllMovies` requests
beyond the first. -/
def pageRange (totalPages : Int) : List Int :=
  (List.range (totalPages - 1).toNat).map (fun i : Nat => (i : Int) + 2)

/-- Outcome of `Promise.all` over the page requests: the settled results
of each page, combined in page order; any rejection rejects the whole.
Concurrency is abstracted: each page fetch is an oracle from page number
to settled outcome, and `Promise.all` keeps results in argument order
regardless of completion order, so the aggregation is a pure fold.  (The
model surfaces the first failing page in page order; the claim under
verification only requires that some error propagates.) -/
def fetchSeq (fetchPage : Int → Except FetchError MoviesResponse) :
    List Int → Except FetchError (List Movie)
  | [] => .ok []
  | p :: ps =>
    match fetchPage p with
    | .error e => .error e
    | .ok r =>
      match fetchSeq fetchPage ps with
      | .error e => .error e
      | .ok rest => .ok (r.data ++ rest)

/-- Model of `fetchAllMovies`: fetch page 1; if `total_pages <= 1` return
its data; otherwise await all remaining pages and concatenate in page
order.  A rejection anywhere rejects the aggregate (`Promise.all`). -/
def fetchAllMovies (fetchPage : Int → Except FetchError MoviesResponse) :
    Except FetchError (List Movie) :=
  match fetchPage 1 with
  | .error e => .error e
  | .ok firstPage =>
    if firstPage.total_pages ≤ 1 then .ok firstPage.data
    else
      match fetchSeq fetchPage (pageRange firstPage.total_pages) with
      | .error e => .error e
      | .ok rest => .ok (firstPage.data ++ rest)

/-! ### Declarative regex predicate for `\d{4}` -/

/-- The regex `\d{4}` matches at position `i`: at least four characters
remain there and the first four are all digits. -/
def hasFourAt (l : List Char) (i : Nat) : Prop :=
  4 ≤ (l.drop i).length ∧ ∀ c ∈ (l.drop i).take 4, isDigitC c

instance (l : List Char) (i : Nat) : Decidable (hasFourAt l i) := by
  unfold hasFourAt; infer_instance

/-! ### Concrete fixtures for the claims' scenarios -/

/-- A wire record with only the `Director` field populated. -/
def mkDirectorMovie (d : Option String) : Movie :=
  ⟨none, none, none, none, none, none, d, none, none⟩

/-- A wire record with only the `Genre` field populated. -/
def mkGenreMovie (g : Option String) : Movie :=
  ⟨none, none, none, none, none, g, none, none, none⟩

/-- The spec's Wachowski scenario: the two-director record twice, then
the single-director record. -/
def wachowskiMovies : List Movie :=
  [mkDirectorMovie (some ("Lana Wachowski, Lilly Wachowski")),
   mkDirectorMovie (some ("Lana Wachowski, Lilly Wachowski")),
   mkDirectorMovie (some ("Lana Wachowski"))]

/-- The spec's exact-threshold scenario: three records by one director. -/
def nolanMovies : List Movie :=
  [mkDirectorMovie (some ("Christopher Nolan")),
   mkDirectorMovie (some ("Christopher Nolan")),
   mkDirectorMovie (some ("Christopher Nolan"))]

/-- Two directors whose case-insensitive and code-unit orders disagree:
`"Beta" < "alpha"` by UTF-16 code units, `"alpha" < "Beta"` ignoring
case. -/
def caseOrderMovies : List Movie :=
  [mkDirectorMovie (some ("alpha")), mkDirectorMovie (some ("Beta"))]

/-- All fields `null`/`undefined`. -/
def movieAllNull : Movie := ⟨none, none, none, none, none, none, none, none, none⟩

/-- All fields empty strings. -/
def movieAllEmpty : Movie :=
  ⟨some (""), some (""), some (""), some (""), some (""), some (""), some (""),
   some (""), some ("")⟩

/-- All fields the `"N/A"` sentinel. -/
def movieAllNA : Movie :=
  ⟨some NA, some NA, some NA, some NA, some NA, some NA, some NA, some NA, some NA⟩

/-- All fields whitespace-only. -/
def movieAllWs : Movie :=
  ⟨some ("   "), some ("   "), some ("   "), some ("   "), some ("   "),
   some ("   "), some ("   "), some ("   "), some ("   ")⟩

/-- A normalized movie with no year, for exercising the year filters. -/
def noYearMovie : NormalizedMovie :=
  ⟨"Unknown", none, "", "", none, [], [], [], [], movieAllNull⟩

/-- A normalized movie with year 1999. -/
def matrixMovie : NormalizedMovie :=
  ⟨"The Matrix", some 1999, "", "", none, [], [], [], [], movieAllNull⟩

/-- A filter object with both year bounds set. -/
def yearWindowFilters : MoviesSearchFilters :=
  ⟨none, some 2000, some 2005, none, none⟩

/-- A response fixture: one record, the given `total_pages`. -/
def respWith (tp : Int) : MoviesResponse :=
  ⟨1, 10, 10, tp, [mkDirectorMovie (some ("A"))]⟩

/-- Fetch oracle whose first page rejects. -/
def oracleFirstFails : Int → Except FetchError MoviesResponse :=
  fun _ => .error .network

/-- Fetch oracle with three pages whose page 2 is cancelled. -/
def oraclePage2Aborts : Int → Except FetchError MoviesResponse :=
  fun p => if p = 2 then .error .abort else .ok (respWith 3)

/-- Fetch oracle with three pages, all succeeding. -/
def oracleAllOk : Int → Except FetchError MoviesResponse :=
  fun _ => .ok (respWith 3)

/-! ## Lemmas about the stable sort -/

theorem insertSorted_perm (lt : α → α → Bool) (x : α) (l : List α) :
    (insertSorted lt x l).Perm (x :: l) := by
  induction l with
  | nil => simp [insertSorted]
  | cons y ys ih =>
    by_cases h : lt x y
    · simp [insertSorted, h]
    · simp only [insertSorted, h, if_neg, Bool.false_eq_true, not_false_iff]
      exact (ih.cons y).trans (List.Perm.swap x y ys)

theorem sortJs_perm_aux (lt : α → α → Bool) :
    ∀ (l acc : List α), (l.foldl (fun a x => insertSorted lt x a) acc).Perm (acc ++ l) := by
  intro l
  induction l with
  | nil => intro acc; simp
  | cons x xs ih =>
    intro acc
    have h1 := ih (insertSorted lt x acc)
    have h2 : (insertSorted lt x acc ++ xs).Perm ((x :: acc) ++ xs) :=
      (insertSorted_perm lt x acc).append_right xs
    have h3 : ((x :: acc) ++ xs).Perm (acc ++ x :: xs) := List.perm_middle.symm
    exact (h1.trans h2).trans h3

theorem sortJs_perm (lt : α → α → Bool) (l : List α) : (sortJs lt l).Perm l := by
  simpa using sortJs_perm_aux lt l []

theorem mem_sortJs (lt : α → α → Bool) (l : List α) (x : α) :
    x ∈ sortJs lt l ↔ x ∈ l :=
  (sortJs_perm lt l).mem_iff

theorem lexLtN_cons (x y : Nat) (xs ys : List Nat) :
    lexLtN (x :: xs) (y :: ys) =
      (if x < y then true else if y < x then false else lexLtN xs ys) := rfl

theorem lexLtN_cons_iff (x y : Nat) (xs ys : List Nat) :
    lexLtN (x :: xs) (y :: ys) = true ↔ (x < y ∨ (x = y ∧ lexLtN xs ys = true)) := by
  rw [lexLtN_cons]
  split_ifs with h1 h2
  · simp [h1]
  · simp; omega
  · have hxy : x = y := by omega
    simp [hxy]

theorem lexLtN_asymm : ∀ a b : List Nat, lexLtN a b = true → lexLtN b a = false := by
  intro a
  induction a with
  | nil =>
    intro b h
    cases b with
    | nil => simp [lexLtN] at h
    | cons y ys => simp [lexLtN]
  | cons x xs ih =>
    intro b h
    cases b with
    | nil => simp [lexLtN] at h
    | cons y ys =>
      rcases (lexLtN_cons_iff x y xs ys).mp h with h' | ⟨hx, h'⟩
      · rw [lexLtN_cons, if_neg (by omega : ¬ y < x), if_pos h']
      · subst hx
        rw [lexLtN_cons, if_neg (by omega : ¬ x < x)]
        rw [if_neg (by omega : ¬ x < x)]
        exact ih ys h'

theorem lexLtN_trans : ∀ a b c : List Nat,
    lexLtN a b = true → lexLtN b c = true → lexLtN a c = true := by
  intro a
  induction a with
  | nil =>
    intro b c hab hbc
    cases b with
    | nil => simp [lexLtN] at hab
    | cons y ys =>
      cases c with
      | nil => simp [lexLtN] at hbc
      | cons z zs => simp [lexLtN]
  | cons x xs ih =>
    intro b c hab hbc
    cases b with
    | nil => simp [lexLtN] at hab
    | cons y ys =>
      cases c with
      | nil => simp [lexLtN] at hbc
      | cons z zs =>
        rw [lexLtN_cons_iff]
        rcases (lexLtN_cons_iff x y xs ys).mp hab with h1 | ⟨hx, h1⟩ <;>
          rcases (lexLtN_cons_iff y z ys zs).mp hbc with h2 | ⟨hy, h2⟩
        · exact Or.inl (by omega)
        · exact Or.inl (by omega)
        · exact Or.inl (by omega)
        · subst hx; subst hy
          exact Or.inr ⟨rfl, ih ys zs h1 h2⟩

theorem insertSorted_pairwise (lt : α → α → Bool)
    (hasym : ∀ a b, lt a b = true → lt b a = false)
    (htr : ∀ a b c, lt a b = true → lt b c = true → lt a c = true)
    (x : α) (l : List α) (h : l.Pairwise (fun a b => lt b a = false)) :
    (insertSorted lt x l).Pairwise (fun a b => lt b a = false) := by
  induction l with
  | nil => simp [insertSorted]
  | cons y ys ih =>
    rcases List.pairwise_cons.mp h with ⟨hy, hys⟩
    by_cases hxy : lt x y
    · simp only [insertSorted, hxy, if_pos]
      refine List.pairwise_cons.mpr ⟨?_, h⟩
      intro z hz
      rcases List.mem_cons.mp hz with hzy | hzys
      · cases hzy; exact hasym _ _ hxy
      · by_cases hc : lt z x
        · have hzy2 : lt z y = true := htr z x y hc hxy
          rw [hy z hzys] at hzy2
          exact absurd hzy2 (by simp)
        · simpa using hc
    · simp only [insertSorted, hxy]
      simp only [Bool.false_eq_true, if_neg, not_false_iff]
      refine List.pairwise_cons.mpr ⟨?_, ih hys⟩
      intro z hz
      rcases List.mem_cons.mp ((insertSorted_perm lt x ys).mem_iff.mp hz) with hzx | hzys
      · cases hzx; simpa using hxy
      · exact hy z hzys

theorem sortJs_pairwise_aux (lt : α → α → Bool)
    (hasym : ∀ a b, lt a b = true → lt b a = false)
    (htr : ∀ a b c, lt a b = true → lt b c = true → lt a c = true) :
    ∀ (l acc : List α), acc.Pairwise (fun a b => lt b a = false) →
      (l.foldl (fun a x => insertSorted lt x a) acc).Pairwise
        (fun a b => lt b a = false) := by
  intro l
  induction l with
  | nil => intro acc h; simpa using h
  | cons x xs ih =>
    intro acc h
    exact ih _ (insertSorted_pairwise lt hasym htr x acc h)

theorem sortJs_pairwise (lt : α → α → Bool)
    (hasym : ∀ a b, lt a b = true → lt b a = false)
    (htr : ∀ a b c, lt a b = true → lt b c = true → lt a c = true)
    (l : List α) :
    (sortJs lt l).Pairwise (fun a b => lt b a = false) :=
  sortJs_pairwise_aux lt hasym htr l [] (by simp)

/-! ## Lemmas about the tally association list -/

theorem tokenCount_append (nk : String → String) (ts ds : List String) (k : String) :
    tokenCount nk (ts ++ ds) k = tokenCount nk ts k + tokenCount nk ds k := by
  simp [tokenCount, List.filter_append]

theorem tokenCount_single (nk : String → String) (d : String) (k : String) :
    tokenCount nk [d] k = if nk d = k then 1 else 0 := by
  simp [tokenCount, List.filter]
  split <;> simp_all

theorem firstTokenRaw_append (nk : String → String) (ts ds : List String) (k : String) :
    firstTokenRaw nk (ts ++ ds) k =
      ((firstTokenRaw nk ts k).or (firstTokenRaw nk ds k)) := by
  simp only [firstTokenRaw, List.find?_append]
  cases ts.find? (fun d => nk d = k) <;> simp

theorem firstTokenRaw_single (nk : String → String) (d : String) (k : String) :
    firstTokenRaw nk [d] k = if nk d = k then some (jsTrim d) else none := by
  simp [firstTokenRaw, List.find?]
  split <;> simp_all

theorem firstTokenRaw_none_iff (nk : String → String) (ts : List String) (k : String) :
    firstTokenRaw nk ts k = none ↔ tokenCount nk ts k = 0 := by
  simp [firstTokenRaw, tokenCount, List.find?_eq_none, List.length_eq_zero,
    List.filter_eq_nil_iff]

theorem getEntry_nil (k : String) : getEntry [] k = none := rfl

theorem getEntry_cons (e : String × String × Nat) (rest : List (String × String × Nat))
    (k : String) :
    getEntry (e :: rest) k = if e.1 = k then some e else getEntry rest k := by
  simp only [getEntry, List.find?]
  split <;> simp_all

theorem getEntry_bump (acc : List (String × String × Nat)) (k raw k' : String) :
    getEntry (bump acc k raw) k' =
      if k' = k then
        (match getEntry acc k with
         | some e => some (e.1, e.2.1, e.2.2 + 1)
         | none => some (k, raw, 1))
      else getEntry acc k' := by
  induction acc with
  | nil =>
    by_cases h : k' = k
    · simp [bump, getEntry_nil, getEntry_cons, h]
    · simp [bump, getEntry_nil, getEntry_cons, h, Ne.symm h]
  | cons e rest ih =>
    by_cases he : e.1 = k
    · simp only [bump, he, if_pos]
      by_cases h : k' = k
      · subst h
        simp [getEntry_cons, he]
      · simp [getEntry_cons, he, h, Ne.symm h]
    · simp only [bump, he, ite_false]
      by_cases h : k' = k
      · subst h
        have hek : e.1 = k' → False := he
        simp [getEntry_cons, he, ih, if_pos rfl]
      · by_cases hek : e.1 = k'
        · simp [getEntry_cons, hek, h]
        · simp [getEntry_cons, hek, h, ih]

theorem getEntry_none_iff (acc : List (String × String × Nat)) (k : String) :
    getEntry acc k = none ↔ ∀ e ∈ acc, e.1 ≠ k := by
  simp [getEntry, List.find?_eq_none]

theorem getEntry_some (acc : List (String × String × Nat)) (k : String)
    (e : String × String × Nat) (h : getEntry acc k = some e) :
    e ∈ acc ∧ e.1 = k := by
  refine ⟨List.mem_of_find?_eq_some h, ?_⟩
  have := List.find?_some h
  simpa using this

theorem mem_getEntry (acc : List (String × String × Nat))
    (e : String × String × Nat) (nd : (acc.map (fun e => e.1)).Nodup)
    (he : e ∈ acc) : getEntry acc e.1 = some e := by
  induction acc with
  | nil => simp at he
  | cons f rest ih =>
    rw [List.map_cons] at nd
    have nd' := List.nodup_cons.mp nd
    rcases List.mem_cons.mp he with rfl | hrest
    · simp [getEntry_cons]
    · have hne : f.1 ≠ e.1 := by
        intro hfe
        exact nd'.1 (hfe ▸ List.mem_map_of_mem (fun x => x.1) hrest)
      rw [getEntry_cons, if_neg hne]
      exact ih nd'.2 hrest

theorem bump_keys (acc : List (String × String × Nat)) (k raw : String) :
    (bump acc k raw).map (fun e => e.1) =
      (if getEntry acc k = none then acc.map (fun e => e.1) ++ [k]
       else acc.map (fun e => e.1)) := by
  induction acc with
  | nil => simp [bump, getEntry_nil]
  | cons e rest ih =>
    by_cases he : e.1 = k
    · simp [bump, he, getEntry_cons]
    · rw [getEntry_cons, if_neg he]
      by_cases hg : getEntry rest k = none
      · simp [bump, he, ih, hg]
      · simp [bump, he, ih, hg]

theorem tallyStep (ts : List String) (acc : List (String × String × Nat))
    (d : String) (h : TallyInv ts acc) : TallyInv (ts ++ [d]) (tallyToken acc d) := by
  obtain ⟨hne, hnd, hget⟩ := h
  by_cases hd : normalizeDirectorName d = ""
  · have ht : tallyToken acc d = acc := by simp [tallyToken, hd]
    rw [ht]
    refine ⟨hne, hnd, ?_⟩
    intro k hk
    have hdk : ¬ (normalizeDirectorName d = k) := fun hh => hk (hh ▸ hd)
    rw [hget k hk, firstTokenRaw_append, firstTokenRaw_single, if_neg hdk,
      tokenCount_append, tokenCount_single, if_neg hdk]
    cases firstTokenRaw normalizeDirectorName ts k <;> simp
  · have ht : tallyToken acc d = bump acc (normalizeDirectorName d) (jsTrim d) := by
      simp [tallyToken, hd]
    rw [ht]
    refine ⟨?_, ?_, ?_⟩
    · intro e hemem
      have hkm : e.1 ∈ (bump acc (normalizeDirectorName d) (jsTrim d)).map (fun e => e.1) :=
        List.mem_map_of_mem (fun e => e.1) hemem
      rw [bump_keys] at hkm
      by_cases hg : getEntry acc (normalizeDirectorName d) = none
      · rw [if_pos hg] at hkm
        rcases List.mem_append.mp hkm with hin | hsing
        · obtain ⟨f, hf, hfe⟩ := List.mem_map.mp hin
          exact hfe ▸ hne f hf
        · simp only [List.mem_singleton] at hsing
          exact hsing ▸ hd
      · rw [if_neg hg] at hkm
        obtain ⟨f, hf, hfe⟩ := List.mem_map.mp hkm
        exact hfe ▸ hne f hf
    · rw [bump_keys]
      by_cases hg : getEntry acc (normalizeDirectorName d) = none
      · rw [if_pos hg]
        have hnotin : normalizeDirectorName d ∉ acc.map (fun e => e.1) := by
          intro hin
          obtain ⟨f, hf, hfe⟩ := List.mem_map.mp hin
          exact ((getEntry_none_iff acc _).mp hg f hf) hfe
        simp [List.nodup_append, hnd, hnotin]
      · rw [if_neg hg]; exact hnd
    · intro k hk
      rw [getEntry_bump]
      by_cases hkd : k = normalizeDirectorName d
      · rw [if_pos hkd, ← hkd, hget k hk, firstTokenRaw_append, firstTokenRaw_single,
          if_pos hkd.symm, tokenCount_append, tokenCount_single, if_pos hkd.symm]
        cases hfr : firstTokenRaw normalizeDirectorName ts k with
        | none =>
          have hc0 := (firstTokenRaw_none_iff normalizeDirectorName ts k).mp hfr
          simp [hc0]
        | some raw => simp
      · rw [if_neg hkd]
        have hdk : ¬ (normalizeDirectorName d = k) := fun hh => hkd hh.symm
        rw [hget k hk, firstTokenRaw_append, firstTokenRaw_single, if_neg hdk,
          tokenCount_append, tokenCount_single, if_neg hdk]
        cases firstTokenRaw normalizeDirectorName ts k <;> simp

theorem tallyFold (ds : List String) :
    ∀ (ts : List String) (acc : List (String × String × Nat)),
      TallyInv ts acc → TallyInv (ts ++ ds) (ds.foldl tallyToken acc) := by
  induction ds with
  | nil => intro ts acc h; simpa using h
  | cons d ds ih =>
    intro ts acc h
    have step := tallyStep ts acc d h
    have := ih (ts ++ [d]) (tallyToken acc d) step
    simpa [List.append_assoc] using this

theorem directorMap_inv (movies : List Movie) :
    TallyInv (directorTokens movies) (directorMap movies) := by
  have h0 : TallyInv [] [] := by
    refine ⟨by simp, by simp, ?_⟩
    intro k hk
    simp [getEntry_nil, firstTokenRaw, List.find?]
  simpa using tallyFold (directorTokens movies) [] [] h0

theorem mem_aggregateDirectors_iff (movies : List Movie) (t : ℚ) (ht : 0 ≤ t)
    (e : DirectorCount) :
    e ∈ aggregateDirectors movies t ↔
      ∃ k, k ≠ "" ∧
        firstTokenRaw normalizeDirectorName (directorTokens movies) k = some e.name ∧
        tokenCount normalizeDirectorName (directorTokens movies) k = e.count ∧
        (e.count : ℚ) > t := by
  by_cases hempty : movies.length = 0
  · have hml : movies = [] := List.length_eq_zero.mp hempty
    subst hml
    simp only [aggregateDirectors, if_pos rfl]
    constructor
    · intro h; simp at h
    · rintro ⟨k, hk, hfr, hc, hgt⟩
      have : tokenCount normalizeDirectorName (directorTokens []) k = 0 := by
        simp [tokenCount, directorTokens]
      rw [this] at hc
      rw [← hc] at hgt
      simp at hgt
      exact absurd (lt_of_le_of_lt ht hgt) (lt_irrefl 0)
  · have hterm : ¬ t < 0 := not_lt.mpr ht
    rw [aggregateDirectors]
    rw [if_neg hempty, if_neg hterm]
    rw [mem_sortJs, List.mem_filterMap]
    obtain ⟨hne, hnd, hget⟩ := directorMap_inv movies
    constructor
    · rintro ⟨entry, hmem, hsome⟩
      by_cases hcond : (entry.2.2 : ℚ) > t
      · rw [if_pos hcond] at hsome
        have heq := Option.some.inj hsome
        have hk := hne entry hmem
        have hgetE := mem_getEntry _ entry hnd hmem
        have := hget entry.1 hk
        rw [hgetE] at this
        cases hfr : firstTokenRaw normalizeDirectorName (directorTokens movies) entry.1 with
        | none => rw [hfr] at this; simp at this
        | some raw =>
          rw [hfr] at this
          have hinj := Option.some.inj this.symm
          refine ⟨entry.1, hk, ?_, ?_, ?_⟩
          · rw [hfr]
            have h21 : raw = entry.2.1 := by
              simpa using congrArg (fun p => p.2.1) hinj
            rw [h21, ← heq]
          · have h22 : tokenCount normalizeDirectorName (directorTokens movies) entry.1
                = entry.2.2 := by
              simpa using congrArg (fun p => p.2.2) hinj
            rw [h22, ← heq]
          · rw [← heq]
            exact hcond
      · rw [if_neg hcond] at hsome
        simp at hsome
    · rintro ⟨k, hk, hfr, hc, hgt⟩
      refine ⟨(k, e.name, e.count), ?_, ?_⟩
      · have := hget k hk
        rw [hfr, hc] at this
        exact (getEntry_some _ _ _ this).1
      · rw [if_pos (by exact_mod_cast hgt)]

theorem getU_nil (k : String) : getU [] k = none := rfl

theorem getU_cons (e : String × String) (rest : List (String × String)) (k : String) :
    getU (e :: rest) k = if e.1 = k then some e else getU rest k := by
  simp only [getU, List.find?]
  split <;> simp_all

theorem getU_none_iff (acc : List (String × String)) (k : String) :
    getU acc k = none ↔ ∀ e ∈ acc, e.1 ≠ k := by
  simp [getU, List.find?_eq_none]

theorem getU_some (acc : List (String × String)) (k : String)
    (e : String × String) (h : getU acc k = some e) : e ∈ acc ∧ e.1 = k := by
  refine ⟨List.mem_of_find?_eq_some h, ?_⟩
  have := List.find?_some h
  simpa using this

theorem mem_getU (acc : List (String × String)) (e : String × String)
    (nd : (acc.map (fun e => e.1)).Nodup) (he : e ∈ acc) : getU acc e.1 = some e := by
  induction acc with
  | nil => simp at he
  | cons f rest ih =>
    rw [List.map_cons] at nd
    have nd' := List.nodup_cons.mp nd
    rcases List.mem_cons.mp he with rfl | hrest
    · simp [getU_cons]
    · have hne : f.1 ≠ e.1 := by
        intro hfe
        exact nd'.1 (hfe ▸ List.mem_map_of_mem (fun x => x.1) hrest)
      rw [getU_cons, if_neg hne]
      exact ih nd'.2 hrest

theorem getU_append_single (acc : List (String × String)) (n raw k : String) :
    getU (acc ++ [(n, raw)]) k =
      ((getU acc k).or (if n = k then some (n, raw) else none)) := by
  simp only [getU, List.find?_append]
  cases acc.find? (fun e => e.1 = k) with
  | none =>
    simp only [Option.none_or]
    simp [List.find?]
    split <;> simp_all
  | some e => simp

theorem uniqStep (nk : String → String) (ts : List String)
    (acc : List (String × String)) (d : String) (h : UniqInv nk ts acc) :
    UniqInv nk (ts ++ [d]) (addUnique nk acc d) := by
  obtain ⟨hne, hnd, hget⟩ := h
  by_cases hd : nk d = ""
  · have ht : addUnique nk acc d = acc := by simp [addUnique, hd]
    rw [ht]
    refine ⟨hne, hnd, ?_⟩
    intro k hk
    have hdk : ¬ (nk d = k) := fun hh => hk (hh ▸ hd)
    rw [hget k hk, firstTokenRaw_append, firstTokenRaw_single, if_neg hdk]
    cases firstTokenRaw nk ts k <;> simp
  · by_cases hpresent : acc.any (fun e => e.1 = nk d)
    · have ht : addUnique nk acc d = acc := by simp [addUnique, hd, hpresent]
      rw [ht]
      refine ⟨hne, hnd, ?_⟩
      intro k hk
      rw [hget k hk, firstTokenRaw_append, firstTokenRaw_single]
      by_cases hdk : nk d = k
      · rw [if_pos hdk]
        obtain ⟨e, hemem, hek⟩ := List.any_eq_true.mp hpresent
        have hek' : e.1 = nk d := by simpa using hek
        have : getU acc k = some e := hdk ▸ hek' ▸ mem_getU acc e hnd hemem
        rw [hget k hk] at this
        cases hfr : firstTokenRaw nk ts k with
        | none => rw [hfr] at this; simp at this
        | some raw => simp
      · rw [if_neg hdk]
        cases firstTokenRaw nk ts k <;> simp
    · have ht : addUnique nk acc d = acc ++ [(nk d, jsTrim d)] := by
        simp [addUnique, hd, hpresent]
      rw [ht]
      have habsent : ∀ e ∈ acc, e.1 ≠ nk d := by
        intro e hemem hek
        exact hpresent (List.any_eq_true.mpr ⟨e, hemem, by simpa using hek⟩)
      refine ⟨?_, ?_, ?_⟩
      · intro e hemem
        rcases List.mem_append.mp hemem with hin | hsing
        · exact hne e hin
        · simp only [List.mem_singleton] at hsing
          rw [hsing]
          exact hd
      · have hnotin : nk d ∉ acc.map (fun e => e.1) := by
          intro hin
          obtain ⟨f, hf, hfe⟩ := List.mem_map.mp hin
          exact habsent f hf hfe
        simp [List.nodup_append, hnd, hnotin]
      · intro k hk
        rw [getU_append_single, hget k hk, firstTokenRaw_append, firstTokenRaw_single]
        by_cases hdk : nk d = k
        · rw [if_pos hdk, if_pos hdk]
          have hgn : getU acc k = none :=
            (getU_none_iff acc k).mpr (fun e he => fun hek => habsent e he (hdk ▸ hek))
          rw [hget k hk] at hgn
          cases hfr : firstTokenRaw nk ts k with
          | none => rw [hdk]; simp
          | some raw => rw [hfr] at hgn; simp at hgn
        · rw [if_neg hdk, if_neg hdk]
          cases firstTokenRaw nk ts k <;> simp

theorem uniqFold (nk : String → String) (ds : List String) :
    ∀ (ts : List String) (acc : List (String × String)),
      UniqInv nk ts acc → UniqInv nk (ts ++ ds) (ds.foldl (addUnique nk) acc) := by
  induction ds with
  | nil => intro ts acc h; simpa using h
  | cons d ds ih =>
    intro ts acc h
    have := ih (ts ++ [d]) (addUnique nk acc d) (uniqStep nk ts acc d h)
    simpa [List.append_assoc] using this

theorem uniqInv_of_tokens (nk : String → String) (ts : List String) :
    UniqInv nk ts (ts.foldl (addUnique nk) []) := by
  have h0 : UniqInv nk [] [] := by
    refine ⟨by simp, by simp, ?_⟩
    intro k hk
    simp [getU_nil, firstTokenRaw, List.find?]
  simpa using uniqFold nk ts [] [] h0

theorem mem_uniqValues_iff (nk : String → String) (ts : List String) (name : String) :
    name ∈ (ts.foldl (addUnique nk) []).map (fun e => e.2) ↔
      ∃ k, k ≠ "" ∧ firstTokenRaw nk ts k = some name := by
  obtain ⟨hne, hnd, hget⟩ := uniqInv_of_tokens nk ts
  constructor
  · intro hmem
    obtain ⟨e, hemem, hee⟩ := List.mem_map.mp hmem
    have hk := hne e hemem
    have := mem_getU _ e hnd hemem
    rw [hget e.1 hk] at this
    cases hfr : firstTokenRaw nk ts e.1 with
    | none => rw [hfr] at this; simp at this
    | some raw =>
      rw [hfr] at this
      have := Option.some.inj this
      refine ⟨e.1, hk, ?_⟩
      rw [hfr]
      have : raw = e.2 := by
        have h2 := congrArg (fun p => p.2) this
        simpa using h2
      rw [this, hee]
  · rintro ⟨k, hk, hfr⟩
    have := hget k hk
    rw [hfr] at this
    have hmem := (getU_some _ _ _ this).1
    exact List.mem_map.mpr ⟨(k, name), hmem, rfl⟩

/-! ## Claim theorems -/

/-- C1: `aggregateDirectors` groups director tokens by the normalized key
(trimmed, whitespace-collapsed, case-folded): every entry of the result
is a normalized key's tally — the name is the trimmed raw casing of the
key's first occurrence, the count is the number of tokens with that key —
empty keys contribute nothing, and conversely every nonempty key whose
count clears the threshold appears.  In particular the spec's Wachowski
scenario at threshold 1 yields Lana (3) then Lilly (2). -/
theorem C1_aggregateDirectors_grouping :
    (∀ (movies : List Movie) (t : ℚ), 0 ≤ t → ∀ e : DirectorCount,
      (e ∈ aggregateDirectors movies t ↔
        ∃ k, k ≠ "" ∧
          firstTokenRaw normalizeDirectorName (directorTokens movies) k = some e.name ∧
          tokenCount normalizeDirectorName (directorTokens movies) k = e.count ∧
          (e.count : ℚ) > t)) ∧
    aggregateDirectors wachowskiMovies 1 =
      [⟨"Lana Wachowski", 3⟩, ⟨"Lilly Wachowski", 2⟩] :=
  ⟨mem_aggregateDirectors_iff, by decide⟩

/-- C1 witness: the characterization applied at the Wachowski scenario,
threshold 1, entry Lana/3. -/
theorem C1_aggregateDirectors_grouping_witness :
    ∃ k, k ≠ "" ∧
      firstTokenRaw normalizeDirectorName (directorTokens wachowskiMovies) k =
        some ("Lana Wachowski") ∧
      tokenCount normalizeDirectorName (directorTokens wachowskiMovies) k = 3 ∧
      ((3 : ℕ) : ℚ) > 1 :=
  (C1_aggregateDirectors_grouping.1 wachowskiMovies 1 (by norm_num)
    ⟨"Lana Wachowski", 3⟩).mp (by decide)

/-- C4: a negative threshold yields the empty list, for every list of
movies — not an error and not "no lower bound". -/
theorem C4_negative_threshold (movies : List Movie) (t : ℚ) (ht : t < 0) :
    aggregateDirectors movies t = [] := by
  rw [aggregateDirectors]
  by_cases h : movies.length = 0
  · rw [if_pos h]
  · rw [if_neg h, if_pos ht]

/-- C4 witness: threshold -1 on a nonempty movie list. -/
theorem C4_negative_threshold_witness :
    aggregateDirectors wachowskiMovies (-1) = [] :=
  C4_negative_threshold wachowskiMovies (-1) (by norm_num)

/-- C5: for every nonnegative threshold, every returned count is strictly
greater than the threshold; in particular three Nolan records at
threshold 3 yield the empty list. -/
theorem C5_strict_threshold :
    (∀ (movies : List Movie) (t : ℚ), 0 ≤ t → ∀ e ∈ aggregateDirectors movies t,
      t < (e.count : ℚ)) ∧
    aggregateDirectors nolanMovies 3 = [] := by
  constructor
  · intro movies t ht e he
    obtain ⟨k, _, _, _, hgt⟩ := (mem_aggregateDirectors_iff movies t ht e).mp he
    exact hgt
  · decide

/-- C5 witness: the strict bound applied at the Wachowski scenario,
threshold 1, entry Lana/3. -/
theorem C5_strict_threshold_witness : (1 : ℚ) < ((3 : ℕ) : ℚ) :=
  C5_strict_threshold.1 wachowskiMovies 1 (by norm_num) ⟨"Lana Wachowski", 3⟩
    (by decide)

theorem unitLt_asymm (a b : String) (h : unitLt a b = true) : unitLt b a = false :=
  lexLtN_asymm _ _ h

theorem unitLt_trans (a b c : String) (h1 : unitLt a b = true)
    (h2 : unitLt b c = true) : unitLt a c = true :=
  lexLtN_trans _ _ _ h1 h2

/-- C3 amended: the unique extractors deduplicate by the normalized key
and display the first-seen casing, but they sort with the default
code-unit (case-sensitive) order, not the aggregator's case-insensitive
comparator. -/
theorem C3_unique_extractors (movies : List Movie) :
    (getUniqueDirectors movies).Pairwise (fun a b => unitLt b a = false) ∧
    (∀ name, name ∈ getUniqueDirectors movies ↔
      ∃ k, k ≠ "" ∧
        firstTokenRaw normalizeDirectorName (directorTokens movies) k = some name) ∧
    (getUniqueGenres movies).Pairwise (fun a b => unitLt b a = false) ∧
    (∀ name, name ∈ getUniqueGenres movies ↔
      ∃ k, k ≠ "" ∧
        firstTokenRaw normalizeGenreName (genreTokens movies) k = some name) := by
  refine ⟨?_, ?_, ?_, ?_⟩
  · exact sortJs_pairwise unitLt unitLt_asymm unitLt_trans _
  · intro name
    rw [getUniqueDirectors, mem_sortJs]
    exact mem_uniqValues_iff normalizeDirectorName (directorTokens movies) name
  · exact sortJs_pairwise unitLt unitLt_asymm unitLt_trans _
  · intro name
    rw [getUniqueGenres, mem_sortJs]
    exact mem_uniqValues_iff normalizeGenreName (genreTokens movies) name

/-- C3 counterexample: with directors `"alpha"` and `"Beta"`, the unique
extractor's default sort puts `"Beta"` first (code-unit order is
case-sensitive), while the aggregator's case-insensitive comparator puts
`"alpha"` first — the two sort rules disagree and casing does affect the
extractor's output order. -/
theorem C3_counterexample :
    getUniqueDirectors caseOrderMovies = ["Beta", "alpha"] ∧
    getUniqueDirectors caseOrderMovies ≠ ["alpha", "Beta"] ∧
    (aggregateDirectors caseOrderMovies 0).map DirectorCount.name =
      ["alpha", "Beta"] := by
  refine ⟨by decide, by decide, by decide⟩

/-- C3 witness: the amended characterization at the two-director input:
sortedness in code-unit order and the dedup/membership property. -/
theorem C3_unique_extractors_witness :
    ("Beta" ∈ getUniqueDirectors caseOrderMovies ↔
      ∃ k, k ≠ "" ∧
        firstTokenRaw normalizeDirectorName (directorTokens caseOrderMovies) k =
          some ("Beta")) :=
  (C3_unique_extractors caseOrderMovies).2.1 ("Beta")

theorem jsToInt_natCast (m : ℕ) : jsToInt (m : ℚ) = (m : ℤ) := by
  simp [jsToInt]

theorem jsSlice_natCast (T : Type) (l : List T) (a b : ℕ) :
    jsSlice l (a : ℚ) (b : ℚ) = (l.drop a).take (b - a) := by
  unfold jsSlice
  dsimp only
  rw [jsToInt_natCast, jsToInt_natCast]
  have hnb : ¬ ((b : ℤ) < 0) := by omega
  have hna : ¬ ((a : ℤ) < 0) := by omega
  rw [if_neg hnb, if_neg hna]
  have hb : (min (b : ℤ) (l.length : ℤ)).toNat = min b l.length := by omega
  have ha : (min (a : ℤ) (l.length : ℤ)).toNat = min a l.length := by omega
  rw [hb, ha]
  by_cases hbl : b ≤ l.length
  · rw [min_eq_left hbl]
    by_cases hal : a ≤ l.length
    · rw [min_eq_left hal]
      exact List.drop_take b a l
    · rw [min_eq_right (le_of_not_le hal)]
      have h1 : (l.take b).length ≤ l.length := by
        simp [List.length_take]
      rw [List.drop_eq_nil_of_le h1]
      have h2 : l.drop a = [] := List.drop_eq_nil_of_le (le_of_not_le hal)
      rw [h2, List.take_nil]
  · rw [min_eq_right (le_of_not_le hbl)]
    rw [List.take_length]
    by_cases hal : a ≤ l.length
    · rw [min_eq_left hal]
      have : l.take (b - a) = l.take (b - a) := rfl
      rw [show l.drop a = l.drop a from rfl]
      have hdt := List.drop_take b a l
      rw [List.take_of_length_le (le_of_not_le hbl)] at hdt
      exact hdt
    · rw [min_eq_right (le_of_not_le hal)]
      rw [List.drop_eq_nil_of_le (le_refl l.length)]
      have h2 : l.drop a = [] := List.drop_eq_nil_of_le (le_of_not_le hal)
      rw [h2, List.take_nil]

/-- C2 amended: `paginate` never errors; `totalPages` is the ceiling of
`length / itemsPerPage` (0 on empty input); a page below 1 is coerced to
1; an integer page `p ≥ 1` produces exactly the slice
`items[(p-1)*n .. p*n)` clamped to bounds (so an out-of-range page gives
an empty slice).  A non-integer page ≥ 1 is NOT coerced (see the
counterexample): the source only tests `page >= 1`. -/
theorem C2_paginate_contract (T : Type) (items : List T) (page : ℚ) (n : ℕ)
    (hn : 1 ≤ n) :
    (paginate items ⟨page, (n : ℚ)⟩).totalItems = items.length ∧
    (paginate items ⟨page, (n : ℚ)⟩).totalPages =
      ⌈(items.length : ℚ) / (n : ℚ)⌉ ∧
    (items.length = 0 → (paginate items ⟨page, (n : ℚ)⟩).totalPages = 0) ∧
    (page < 1 → paginate items ⟨page, (n : ℚ)⟩ = paginate items ⟨1, (n : ℚ)⟩) ∧
    ∀ p : ℕ, 1 ≤ p → page = (p : ℚ) →
      (paginate items ⟨page, (n : ℚ)⟩).currentPage = (p : ℚ) ∧
      (paginate items ⟨page, (n : ℚ)⟩).items =
        (items.drop ((p - 1) * n)).take n := by
  refine ⟨rfl, rfl, ?_, ?_, ?_⟩
  · intro h0
    simp [paginate, h0]
  · intro hp
    have h1 : ¬ (1 ≤ page) := not_le.mpr hp
    simp [paginate, h1]
  · intro p hp hpage
    subst hpage
    have h1 : (1 : ℚ) ≤ (p : ℚ) := by exact_mod_cast hp
    constructor
    · simp [paginate, h1]
    · have hstart : ((p : ℚ) - 1) * (n : ℚ) = (((p - 1) * n : ℕ) : ℚ) := by
        push_cast [Nat.cast_sub hp]
        ring
      have hend : ((((p - 1) * n : ℕ) : ℚ)) + (n : ℚ) =
          (((p - 1) * n + n : ℕ) : ℚ) := by
        push_cast
        ring
      simp only [paginate, if_pos h1]
      rw [hstart, hend, jsSlice_natCast]
      congr 1
      omega

/-- C2 counterexample: the non-integer page 3/2 is NOT coerced to 1 —
`currentPage` comes back 3/2 and the slice `[20, 30]` differs from the
slice `[10, 20]` that page 1 yields. -/
theorem C2_counterexample :
    (paginate ([10, 20, 30, 40] : List ℕ) ⟨3/2, 2⟩).currentPage ≠ 1 ∧
    (paginate ([10, 20, 30, 40] : List ℕ) ⟨3/2, 2⟩).items = [20, 30] ∧
    (paginate ([10, 20, 30, 40] : List ℕ) ⟨1, 2⟩).items = [10, 20] := by
  refine ⟨?_, ?_, ?_⟩
  · simp [paginate]
    norm_num
  · simp [paginate, jsSlice, jsToInt]
    norm_num
    rfl
  · simp [paginate, jsSlice, jsToInt]

/-- C2 witness: the contract applied at `[10, 20, 30]`, page 2, one
item per page: the current page is 2 and the slice is the second item. -/
theorem C2_paginate_contract_witness :
    (paginate ([10, 20, 30] : List ℕ) ⟨2, ((1 : ℕ) : ℚ)⟩).currentPage =
      ((2 : ℕ) : ℚ) ∧
    (paginate ([10, 20, 30] : List ℕ) ⟨2, ((1 : ℕ) : ℚ)⟩).items =
      (([10, 20, 30] : List ℕ).drop ((2 - 1) * 1)).take 1 :=
  (C2_paginate_contract ℕ [10, 20, 30] 2 1 (by norm_num)).2.2.2.2 2 (by norm_num)
    (by norm_num)

theorem titleGuard_noYear (movie : NormalizedMovie) (filters : MoviesSearchFilters) :
    titleGuard movie { filters with yearFrom := none, yearTo := none } =
      titleGuard movie filters := rfl

theorem genresGuard_noYear (movie : NormalizedMovie) (filters : MoviesSearchFilters) :
    genresGuard movie { filters with yearFrom := none, yearTo := none } =
      genresGuard movie filters := rfl

theorem directorGuard_noYear (movie : NormalizedMovie) (filters : MoviesSearchFilters) :
    directorGuard movie { filters with yearFrom := none, yearTo := none } =
      directorGuard movie filters := rfl

/-- C6: the year bounds of `matchesFilters` are inclusive, and a movie
with absent year passes the year filters unconditionally: dropping both
year filters never changes its result, and for a movie with a year the
filter decomposes into the year-free filters plus the two inclusive
bound checks — for every combination of filter values. -/
theorem C6_year_filters (movie : NormalizedMovie) (filters : MoviesSearchFilters) :
    (movie.year = none →
      matchesFilters movie filters =
        matchesFilters movie { filters with yearFrom := none, yearTo := none }) ∧
    (∀ y : Int, movie.year = some y →
      (matchesFilters movie filters = true ↔
        (matchesFilters movie { filters with yearFrom := none, yearTo := none } = true ∧
         (∀ a ∈ filters.yearFrom, a ≤ y) ∧ (∀ b ∈ filters.yearTo, y ≤ b)))) := by
  constructor
  · intro hy
    cases hf : filters.yearFrom <;> cases hg : filters.yearTo <;>
      simp [matchesFilters, yearFromGuard, yearToGuard, hy, hf, hg,
        titleGuard_noYear, genresGuard_noYear, directorGuard_noYear]
  · intro y hy
    cases hf : filters.yearFrom <;> cases hg : filters.yearTo <;>
      simp [matchesFilters, yearFromGuard, yearToGuard, hy, hf, hg,
        titleGuard_noYear, genresGuard_noYear, directorGuard_noYear] <;>
        tauto
/-- C6 witness: the year-filter facts at a no-year movie and at a 1999
movie against the 2000–2005 window. -/
theorem C6_year_filters_witness :
    (matchesFilters noYearMovie yearWindowFilters =
      matchesFilters noYearMovie
        { yearWindowFilters with yearFrom := none, yearTo := none }) ∧
    (matchesFilters matrixMovie yearWindowFilters = true ↔
      (matchesFilters matrixMovie
          { yearWindowFilters with yearFrom := none, yearTo := none } = true ∧
       (∀ a ∈ yearWindowFilters.yearFrom, a ≤ (1999 : ℤ)) ∧
       (∀ b ∈ yearWindowFilters.yearTo, (1999 : ℤ) ≤ b))) :=
  ⟨(C6_year_filters noYearMovie yearWindowFilters).1 rfl,
   (C6_year_filters matrixMovie yearWindowFilters).2 1999 rfl⟩

theorem hasFourAt_cons_succ (c : Char) (cs : List Char) (i : Nat) :
    hasFourAt (c :: cs) (i + 1) ↔ hasFourAt cs i := by
  simp [hasFourAt]

theorem not_hasFourAt_of_short (l : List Char) (i : Nat) (h : l.length < 4) :
    ¬ hasFourAt l i := by
  rintro ⟨h4, _⟩
  rw [List.length_drop] at h4
  omega

theorem hasFourAt_zero_cons4 (c1 c2 c3 c4 : Char) (tl : List Char) :
    hasFourAt (c1 :: c2 :: c3 :: c4 :: tl) 0 ↔
      (isDigitC c1 ∧ isDigitC c2 ∧ isDigitC c3 ∧ isDigitC c4) := by
  simp [hasFourAt]

theorem forall_not_hasFour_cons (c : Char) (cs : List Char) :
    (∀ i, ¬ hasFourAt (c :: cs) i) ↔
      (¬ hasFourAt (c :: cs) 0 ∧ ∀ i, ¬ hasFourAt cs i) := by
  constructor
  · intro h
    refine ⟨h 0, fun i => ?_⟩
    have := h (i + 1)
    rwa [hasFourAt_cons_succ] at this
  · rintro ⟨h0, h⟩ i
    cases i with
    | zero => exact h0
    | succ j => rw [hasFourAt_cons_succ]; exact h j

theorem find4_cons4 (c c2 c3 c4 : Char) (tl : List Char) :
    find4 (c :: c2 :: c3 :: c4 :: tl) =
      (if isDigitC c && isDigitC c2 && isDigitC c3 && isDigitC c4 then
        some [c, c2, c3, c4]
      else find4 (c2 :: c3 :: c4 :: tl)) := rfl

theorem find4_eq_none_iff (l : List Char) :
    find4 l = none ↔ ∀ i, ¬ hasFourAt l i := by
  induction l with
  | nil =>
    simp only [find4, true_iff]
    intro i
    exact not_hasFourAt_of_short [] i (by simp)
  | cons c cs ih =>
    rcases cs with _ | ⟨c2, _ | ⟨c3, _ | ⟨c4, tl⟩⟩⟩
    · simp only [find4, true_iff]
      intro i
      exact not_hasFourAt_of_short [c] i (by simp)
    · simp only [find4, true_iff]
      intro i
      exact not_hasFourAt_of_short [c, c2] i (by simp)
    · simp only [find4, true_iff]
      intro i
      exact not_hasFourAt_of_short [c, c2, c3] i (by simp)
    · by_cases hd : (isDigitC c && isDigitC c2 && isDigitC c3 && isDigitC c4) = true
      · have hfind : find4 (c :: c2 :: c3 :: c4 :: tl) = some [c, c2, c3, c4] := by
          simp [find4, hd]
        rw [hfind]
        constructor
        · intro h; simp at h
        · intro hall
          exact absurd ((hasFourAt_zero_cons4 c c2 c3 c4 tl).mpr (by simp_all)) (hall 0)
      · have hfind : find4 (c :: c2 :: c3 :: c4 :: tl) = find4 (c2 :: c3 :: c4 :: tl) := by
          simp [find4, hd]
        have h0 : ¬ hasFourAt (c :: c2 :: c3 :: c4 :: tl) 0 := by
          rw [hasFourAt_zero_cons4]
          simp only [Bool.and_eq_true] at hd
          tauto
        rw [hfind, ih]
        constructor
        · intro hall i
          cases i with
          | zero => exact h0
          | succ j => rw [hasFourAt_cons_succ]; exact hall j
        · intro hall i
          have := hall (i + 1)
          rwa [hasFourAt_cons_succ] at this

theorem find4_first (l : List Char) : ∀ (i : Nat), hasFourAt l i →
    (∀ j, j < i → ¬ hasFourAt l j) → find4 l = some ((l.drop i).take 4) := by
  induction l with
  | nil =>
    intro i hi _
    exact absurd hi (not_hasFourAt_of_short [] i (by simp))
  | cons c cs ih =>
    intro i hi hleast
    cases i with
    | zero =>
      rcases cs with _ | ⟨c2, _ | ⟨c3, _ | ⟨c4, tl⟩⟩⟩
      · exact absurd hi (not_hasFourAt_of_short _ 0 (by simp))
      · exact absurd hi (not_hasFourAt_of_short _ 0 (by simp))
      · exact absurd hi (not_hasFourAt_of_short _ 0 (by simp))
      · obtain ⟨h1, h2, h3, h4⟩ := (hasFourAt_zero_cons4 c c2 c3 c4 tl).mp hi
        simp [find4, h1, h2, h3, h4]
    | succ j =>
      have hj : hasFourAt cs j := (hasFourAt_cons_succ c cs j).mp hi
      rcases cs with _ | ⟨c2, _ | ⟨c3, _ | ⟨c4, tl⟩⟩⟩
      · exact absurd hj (not_hasFourAt_of_short _ j (by simp))
      · exact absurd hj (not_hasFourAt_of_short _ j (by simp))
      · exact absurd hj (not_hasFourAt_of_short _ j (by simp))
      · have h0 : ¬ hasFourAt (c :: c2 :: c3 :: c4 :: tl) 0 :=
          hleast 0 (Nat.succ_pos j)
        rw [hasFourAt_zero_cons4] at h0
        have hd : ¬ ((isDigitC c && isDigitC c2 && isDigitC c3 && isDigitC c4) = true) := by
          simp only [Bool.and_eq_true]
          tauto
        have hleast' : ∀ j', j' < j → ¬ hasFourAt (c2 :: c3 :: c4 :: tl) j' := by
          intro j' hj' hcontra
          exact hleast (j' + 1) (by omega)
            ((hasFourAt_cons_succ c _ j').mpr hcontra)
        have := ih j hj hleast'
        rw [find4_cons4, if_neg hd, this, List.drop_succ_cons]

/-- C7: `parseYear` returns absent for empty, `"N/A"`, and run-free
strings; otherwise it parses the first four-consecutive-digit window and
returns it exactly when it lies in [1800, 2100].  The spec's examples:
"1999–2000" gives 1999, "N/A"/"99"/"1799" give absent. -/
theorem C7_parseYear :
    (∀ (s : String) (n : Int), parseYear (some s) = some n → 1800 ≤ n ∧ n ≤ 2100) ∧
    (∀ s : String, (∀ i, ¬ hasFourAt s.toList i) → parseYear (some s) = none) ∧
    (∀ (s : String) (i : Nat), hasFourAt s.toList i →
      (∀ j, j < i → ¬ hasFourAt s.toList j) →
      parseYear (some s) =
        (if digitsVal ((s.toList.drop i).take 4) < 1800 ∨
            digitsVal ((s.toList.drop i).take 4) > 2100 then none
         else some (digitsVal ((s.toList.drop i).take 4)))) ∧
    parseYear (some ("1999–2000")) = some 1999 ∧
    parseYear none = none ∧
    parseYear (some NA) = none ∧
    parseYear (some ("99")) = none ∧
    parseYear (some ("1799")) = none ∧
    parseYear (some ("")) = none := by
  refine ⟨?_, ?_, ?_, by decide, by decide, by decide, by decide, by decide, by decide⟩
  · intro s n h
    by_cases hg : s = "" ∨ s = NA
    · simp [parseYear, hg] at h
    · simp only [parseYear, if_neg hg] at h
      cases hf : find4 s.toList with
      | none => rw [hf] at h; simp at h
      | some ds =>
        rw [hf] at h
        simp only at h
        split_ifs at h with hrange
        have hn := Option.some.inj h
        omega
  · intro s hall
    by_cases hg : s = "" ∨ s = NA
    · simp [parseYear, hg]
    · simp only [parseYear, if_neg hg]
      rw [(find4_eq_none_iff s.toList).mpr hall]
  · intro s i hi hleast
    have hs : s ≠ "" := by
      rintro rfl
      exact not_hasFourAt_of_short _ i (by decide) hi
    have hna : s ≠ NA := by
      rintro rfl
      exact (find4_eq_none_iff (NA.toList)).mp (by decide) i hi
    simp only [parseYear, if_neg (not_or.mpr ⟨hs, hna⟩)]
    rw [find4_first s.toList i hi hleast]

/-- C7 witness: the range bound at "2020", and the first-run rule at
"x1999y" (run at index 1, none earlier). -/
theorem C7_parseYear_witness :
    ((1800 : Int) ≤ 2020 ∧ (2020 : Int) ≤ 2100) ∧
    parseYear (some ("x1999y")) =
      (if digitsVal ((("x1999y" : String).toList.drop 1).take 4) < 1800 ∨
          digitsVal ((("x1999y" : String).toList.drop 1).take 4) > 2100 then none
       else some (digitsVal ((("x1999y" : String).toList.drop 1).take 4))) := by
  constructor
  · exact C7_parseYear.1 ("2020") 2020 (by decide)
  · exact C7_parseYear.2.2.1 ("x1999y") 1 (by decide)
      (by
        intro j hj
        rw [Nat.lt_one_iff] at hj
        subst hj
        decide)

/-- C8: `normalizeMovie` is total — every record, including all-null,
all-empty, all-"N/A" and all-whitespace ones, yields a `NormalizedMovie`,
with absent/invalid fields mapped to absent or default values (absent
year/runtime, empty lists, empty strings) rather than errors. -/
theorem C8_normalizeMovie_total :
    (∀ m : Movie, ∃ nm : NormalizedMovie, normalizeMovie m = nm) ∧
    normalizeMovie movieAllNull =
      ⟨"", none, "", "", none, [], [], [], [], movieAllNull⟩ ∧
    normalizeMovie movieAllEmpty =
      ⟨"", none, "", "", none, [], [], [], [], movieAllEmpty⟩ ∧
    normalizeMovie movieAllNA =
      ⟨NA, none, NA, NA, none, [], [], [], [], movieAllNA⟩ ∧
    normalizeMovie movieAllWs =
      ⟨"", none, "", "", none, [], [], [], [], movieAllWs⟩ :=
  ⟨fun m => ⟨normalizeMovie m, rfl⟩, by decide, by decide, by decide, by decide⟩

/-- C8 witness: totality applied at the all-null record. -/
theorem C8_normalizeMovie_total_witness :
    ∃ nm : NormalizedMovie, normalizeMovie movieAllNull = nm :=
  C8_normalizeMovie_total.1 movieAllNull

/-- C10: normalization is lossless — the untouched raw record is carried
in the `original` field of every normalized movie. -/
theorem C10_normalizeMovie_original (m : Movie) : (normalizeMovie m).original = m :=
  rfl

/-- C10 witness: the losslessness fact at the all-null record. -/
theorem C10_normalizeMovie_original_witness :
    (normalizeMovie movieAllNull).original = movieAllNull :=
  C10_normalizeMovie_original movieAllNull

theorem fetchSeq_ok (f : Int → Except FetchError MoviesResponse) :
    ∀ (ps : List Int) (l : List Movie), fetchSeq f ps = .ok l →
      (∀ p ∈ ps, ∃ r, f p = .ok r) ∧
      l = (ps.map (fun p => match f p with | .ok r => r.data | .error _ => [])).flatten := by
  intro ps
  induction ps with
  | nil =>
    intro l h
    simp [fetchSeq] at h
    simp [← h]
  | cons q ps ih =>
    intro l h
    simp only [fetchSeq] at h
    cases hq : f q with
    | error e => rw [hq] at h; simp at h
    | ok r =>
      rw [hq] at h
      cases hrest : fetchSeq f ps with
      | error e => rw [hrest] at h; simp at h
      | ok rest =>
        rw [hrest] at h
        simp only [Except.ok.injEq] at h
        obtain ⟨hall, hflat⟩ := ih rest hrest
        constructor
        · intro p hp
          rcases List.mem_cons.mp hp with rfl | hmem
          · exact ⟨r, hq⟩
          · exact hall p hmem
        · rw [← h, hflat]
          simp [hq]

theorem fetchSeq_error_of_mem (f : Int → Except FetchError MoviesResponse) :
    ∀ (ps : List Int) (p : Int) (e : FetchError), p ∈ ps → f p = .error e →
      ∃ e', fetchSeq f ps = .error e' := by
  intro ps
  induction ps with
  | nil => intro p e hp _; simp at hp
  | cons q ps ih =>
    intro p e hp he
    rcases List.mem_cons.mp hp with rfl | hmem
    · exact ⟨e, by simp [fetchSeq, he]⟩
    · cases hq : f q with
      | error e2 => exact ⟨e2, by simp [fetchSeq, hq]⟩
      | ok r =>
        obtain ⟨e', he'⟩ := ih p e hmem he
        exact ⟨e', by simp [fetchSeq, hq, he']⟩

theorem pageRange_mem (tp p : Int) : p ∈ pageRange tp ↔ 2 ≤ p ∧ p ≤ tp := by
  constructor
  · intro hm
    obtain ⟨a, ha, hpa⟩ := List.mem_map.mp hm
    have ha2 := List.mem_range.mp ha
    omega
  · rintro ⟨h2, hp⟩
    exact List.mem_map.mpr ⟨(p - 2).toNat, List.mem_range.mpr (by omega), by omega⟩

theorem pageRange_nil (tp : Int) (h : tp ≤ 1) : pageRange tp = [] := by
  have h0 : (tp - 1).toNat = 0 := by omega
  simp [pageRange, h0]

/-- C9: the aggregate fetch fails whenever any page fetch fails or is
cancelled — a page-1 rejection propagates as-is, a rejection of any later
in-range page rejects the aggregate, and an `ok` result can only arise
when every in-range page succeeded, carrying all of their data in page
order (never a partial list). -/
theorem C9_fetchAllMovies_failfast :
    (∀ (f : Int → Except FetchError MoviesResponse) (e : FetchError),
      f 1 = .error e → fetchAllMovies f = .error e) ∧
    (∀ (f : Int → Except FetchError MoviesResponse) (r1 : MoviesResponse)
       (p : Int) (e : FetchError), f 1 = .ok r1 → 2 ≤ p → p ≤ r1.total_pages →
      f p = .error e → ∃ e', fetchAllMovies f = .error e') ∧
    (∀ (f : Int → Except FetchError MoviesResponse) (l : List Movie),
      fetchAllMovies f = .ok l →
      ∃ r1, f 1 = .ok r1 ∧
        (∀ p : Int, 2 ≤ p → p ≤ r1.total_pages → ∃ rp, f p = .ok rp) ∧
        l = r1.data ++ ((pageRange r1.total_pages).map
          (fun p => match f p with | .ok r => r.data | .error _ => [])).flatten) := by
  refine ⟨?_, ?_, ?_⟩
  · intro f e h
    simp [fetchAllMovies, h]
  · intro f r1 p e h1 hp2 hptp hpe
    have htp : ¬ (r1.total_pages ≤ 1) := by omega
    obtain ⟨e', he'⟩ := fetchSeq_error_of_mem f (pageRange r1.total_pages) p e
      ((pageRange_mem r1.total_pages p).mpr ⟨hp2, hptp⟩) hpe
    exact ⟨e', by simp [fetchAllMovies, h1, htp, he']⟩
  · intro f l h
    cases h1 : f 1 with
    | error e => rw [fetchAllMovies, h1] at h; simp at h
    | ok r1 =>
      simp only [fetchAllMovies, h1] at h
      by_cases htp : r1.total_pages ≤ 1
      · rw [if_pos htp] at h
        simp only [Except.ok.injEq] at h
        refine ⟨r1, rfl, ?_, ?_⟩
        · intro p hp2 hptp
          omega
        · rw [pageRange_nil r1.total_pages htp]
          simp [← h]
      · rw [if_neg htp] at h
        cases hseq : fetchSeq f (pageRange r1.total_pages) with
        | error e => rw [hseq] at h; simp at h
        | ok rest =>
          rw [hseq] at h
          simp only [Except.ok.injEq] at h
          obtain ⟨hall, hflat⟩ := fetchSeq_ok f (pageRange r1.total_pages) rest hseq
          refine ⟨r1, rfl, ?_, ?_⟩
          · intro p hp2 hptp
            obtain ⟨r, hr⟩ := hall p ((pageRange_mem r1.total_pages p).mpr ⟨hp2, hptp⟩)
            exact ⟨r, hr⟩
          · rw [← h, hflat]

/-- C9 witness: the three facts at concrete oracles — a failing page 1,
a cancelled page 2 of 3, and three succeeding pages. -/
theorem C9_fetchAllMovies_failfast_witness :
    fetchAllMovies oracleFirstFails = .error FetchError.network ∧
    (∃ e', fetchAllMovies oraclePage2Aborts = .error e') ∧
    (∃ r1, oracleAllOk 1 = .ok r1 ∧
      (∀ p : Int, 2 ≤ p → p ≤ r1.total_pages → ∃ rp, oracleAllOk p = .ok rp) ∧
      [mkDirectorMovie (some ("A")), mkDirectorMovie (some ("A")),
        mkDirectorMovie (some ("A"))] = r1.data ++
        ((pageRange r1.total_pages).map
          (fun p => match oracleAllOk p with | .ok r => r.data | .error _ => [])).flatten) := by
  refine ⟨?_, ?_, ?_⟩
  · exact C9_fetchAllMovies_failfast.1 oracleFirstFails FetchError.network rfl
  · exact C9_fetchAllMovies_failfast.2.1 oraclePage2Aborts (respWith 3) 2
      FetchError.abort rfl (by norm_num) (by show (2:Int) ≤ 3; norm_num) rfl
  · exact C9_fetchAllMovies_failfast.2.2 oracleAllOk
      [mkDirectorMovie (some ("A")), mkDirectorMovie (some ("A")),
        mkDirectorMovie (some ("A"))] rfl

end MoviesNext
